import Mathlib

/-!
Shallow embedding of `test-grenad-parameters` (`src/main.rs`), a parameter-sweep
benchmark for the grenad sorted-file store:

* a deterministic PRNG stand-in for `rand::StdRng` (external crate; all results
  rely only on it being a pure function of the seed);
* the word dataset generator (`Gabble` tokens, `sort_unstable` + `dedup`);
* the value generator `random_generate_roaring` and the roaring value codec
  (external crate, modelled opaquely: deserialization and cardinality only);
* the parameter grid built by the nested loops in `main`;
* the idempotent store builder `random_generate_from_params` over an explicit
  filesystem state;
* the two-phase measurement protocol `test_cursor` (full iteration with
  positional key assertions, then randomized lower-bound seeks), with panics
  modelled as an explicit `panicked` outcome;
* the result ranking step (`sort_unstable_by_key`, modelled by its contract).
-/

namespace GrenadBench

/-- `MAX_BITMAP_LEN` from `main.rs`. -/
def MAX_BITMAP_LEN : Nat := 116000000

/-! ### PRNG model -/

/-- State of the modelled pseudo-random generator. -/
structure RngState where
  state : Nat
deriving DecidableEq, Repr

/-- Modelled stand-in for `StdRng::seed_from_u64` (external `rand` crate): the
development relies only on seeding being a pure function of the seed. -/
def seed_from_u64 (seed : Nat) : RngState :=
  ⟨seed % 2 ^ 64⟩

/-- One 64-bit draw of the modelled generator (a 64-bit LCG standing in for
the external `rand::StdRng`). -/
def rngNext (r : RngState) : Nat × RngState :=
  let s := (6364136223846793005 * r.state + 1442695040888963407) % 2 ^ 64
  (s, ⟨s⟩)

/-- Modelled `rng.gen_range(lo..=hi)` (inclusive bounds). -/
def gen_range (r : RngState) (lo hi : Nat) : Nat × RngState :=
  let s := rngNext r
  (lo + s.1 % (hi + 1 - lo), s.2)

/-- Modelled `rng.gen_range(0..n)` (exclusive upper bound). -/
def genBelow (r : RngState) (n : Nat) : Nat × RngState :=
  let s := rngNext r
  (s.1 % n, s.2)

/-- Modelled `rng.gen::<bool>()` coin flip. -/
def genBool (r : RngState) : Bool × RngState :=
  let s := rngNext r
  (s.1 % 2 = 0, s.2)

/-- Modelled `rng.gen::<u32>()`. -/
def genU32 (r : RngState) : Nat × RngState :=
  let s := rngNext r
  (s.1 % 2 ^ 32, s.2)

/-- Modelled `slice.choose(&mut rng)` from `rand::seq::SliceRandom`: `None`
on an empty slice (no rng draw), otherwise a uniformly drawn element. -/
def choose {α : Type} (r : RngState) (l : List α) : Option α × RngState :=
  match l with
  | [] => (none, r)
  | _ :: _ =>
    let g := genBelow r l.length
    (l.get? g.1, g.2)

/-! ### Value codec model -/

/-- The value payload, as seen through the roaring codec (external crate,
treated as opaque apart from successful deserialization and the cardinality
query `bitmap.len()`): either bytes that fail to deserialize, or a bitmap of
some cardinality. -/
inductive Val where
  | invalid
  | bitmap (card : Nat)
deriving DecidableEq, Repr

/-- Modelled `RoaringBitmap::deserialize_from`: `none` is a failed
deserialization (an `unwrap` panic site in `main.rs`), `some c` a bitmap of
cardinality `c`. -/
def deserialize : Val → Option Nat
  | .invalid => none
  | .bitmap c => some c

/-! ### Store entries and the grenad cursor model -/

/-- One key/value entry of a built store. -/
structure Entry (α : Type) where
  key : α
  val : Val
deriving DecidableEq, Repr

/-- Modelled `cursor.move_on_key_greater_than_or_equal_to`: the first entry
(in store order) whose key is `≥ target`; on a sorted store this is the
lower-bound seek. -/
def seekGE {α : Type} [LinearOrder α] (store : List (Entry α)) (target : α) :
    Option (Entry α) :=
  store.find? (fun e => decide (target ≤ e.key))

/-! ### The measurement protocol `test_cursor` -/

/-- The checks `test_cursor` performs on the `i`-th entry of the iteration
phase, in source order: index into `words` (out-of-bounds panics), the
`assert_eq!(k, words[i].as_bytes())`, the deserialization `unwrap`, and the
`assert!(bitmap.len() <= MAX_BITMAP_LEN)`. `none` means all checks pass;
`some msg` is a panic. -/
def checkEntry {α : Type} [DecidableEq α] (words : List α) (i : Nat)
    (e : Entry α) : Option String :=
  match words.get? i with
  | none => some "index out of bounds"
  | some w =>
    if e.key = w then
      match deserialize e.val with
      | none => some "deserialize failed"
      | some c =>
        if c ≤ MAX_BITMAP_LEN then none else some "bitmap len exceeds bound"
    else some "key mismatch"

/-- The full-iteration phase of `test_cursor`: traverse every store entry,
checking it against the dataset position `i`; the first failing check aborts
(panics). -/
def iterPhase {α : Type} [DecidableEq α] (words : List α) :
    List (Entry α) → Nat → Option String
  | [], _ => none
  | e :: rest, i =>
    match checkEntry words i e with
    | some m => some m
    | none => iterPhase words rest (i + 1)

/-- The checks one jump of the jump phase performs, in source order: the
`unwrap` on `words.choose`, the `unwrap` on the seek result, the
`assert_eq!(k, word.as_bytes())`, the deserialization `unwrap` and the
cardinality bound assert. -/
def jumpStepCheck {α : Type} [DecidableEq α] [LinearOrder α] (store : List (Entry α)) :
    Option α → Option String
  | none => some "choose returned None"
  | some w =>
    match seekGE store w with
    | none => some "seek returned None"
    | some e =>
      if e.key = w then
        match deserialize e.val with
        | none => some "deserialize failed"
        | some c =>
          if c ≤ MAX_BITMAP_LEN then none else some "bitmap len exceeds bound"
      else some "key mismatch"

/-- The randomized-jump phase of `test_cursor`: `entry_count` times, draw a
word with `choose` and run the jump checks; the first failure aborts. -/
def jumpPhase {α : Type} [DecidableEq α] [LinearOrder α] (store : List (Entry α))
    (words : List α) : RngState → Nat → Option String
  | _, 0 => none
  | r, n + 1 =>
    let c := choose r words
    match jumpStepCheck store c.1 with
    | some m => some m
    | none => jumpPhase store words c.2 n

/-- The sequence of jump targets the jump phase draws from a given rng state:
a pure replay of exactly the `choose` calls `jumpPhase` makes. -/
def jumpTargets {α : Type} (words : List α) : RngState → Nat → List (Option α)
  | _, 0 => []
  | r, n + 1 =>
    let c := choose r words
    c.1 :: jumpTargets words c.2 n

/-- Outcome of a measurement run: panics are modelled explicitly; `test_cursor`
has no error-return path for assertion failures. -/
inductive TcResult where
  | ok
  | panicked (msg : String)
deriving DecidableEq, Repr

/-- `test_cursor` from `main.rs`, stripped of the timing side effects: the
iteration phase over the whole store followed by `entry_count` randomized
lower-bound jumps, with every assertion/unwrap failure surfacing as a panic. -/
def test_cursor {α : Type} [DecidableEq α] [LinearOrder α] (rng : RngState)
    (store : List (Entry α)) (words : List α) (entry_count : Nat) : TcResult :=
  match iterPhase words store 0 with
  | some m => .panicked m
  | none =>
    match jumpPhase store words rng entry_count with
    | some m => .panicked m
    | none => .ok

/-- `test_lmdb` from `main.rs`: the identical two-phase protocol run against
the LMDB baseline; in the embedding the store is again its entry sequence and
the checks coincide with `test_cursor`'s. -/
def test_lmdb {α : Type} [DecidableEq α] [LinearOrder α] (rng : RngState)
    (store : List (Entry α)) (words : List α) (entry_count : Nat) : TcResult :=
  match iterPhase words store 0 with
  | some m => .panicked m
  | none =>
    match jumpPhase store words rng entry_count with
    | some m => .panicked m
    | none => .ok

/-! ### Dataset generation (word mode) -/

/-- The letters drawn for one token (pure rng threading). -/
def gabbleChars (r : RngState) : Nat → List Char × RngState
  | 0 => ([], r)
  | n + 1 =>
    let g := genBelow r 26
    let rest := gabbleChars g.2 n
    (Char.ofNat (97 + g.1 % 26) :: rest.1, rest.2)

/-- Modelled stand-in for `Gabble::new().with_length(len).generate(&mut rng)`
(external `gabble` crate): a pseudo-random token of exactly the requested
length, a pure function of the rng state. -/
def gabble_generate (r : RngState) (len : Nat) : String × RngState :=
  let g := gabbleChars r len
  (⟨g.1⟩, g.2)

/-- The word generation loop of `main` (lines 186–194): `entry_count` tokens,
each of a length drawn from `rng.gen_range(3..=15)`. -/
def generate_words (r : RngState) : Nat → List String × RngState
  | 0 => ([], r)
  | n + 1 =>
    let g := gen_range r 3 15
    let w := gabble_generate g.2 g.1
    let rest := generate_words w.2 n
    (w.1 :: rest.1, rest.2)

/-- `Vec::dedup`: remove consecutive repeated elements. -/
def dedupRust {α : Type} [DecidableEq α] : List α → List α
  | [] => []
  | [a] => [a]
  | a :: b :: rest =>
    if a = b then dedupRust (b :: rest) else a :: dedupRust (b :: rest)

/-- The generated dataset keys: `words.sort_unstable(); words.dedup();` from
`main`. On `String` equal elements are identical, so any correct sort gives
this result; `mergeSort` realizes it. -/
def dataset_words (seed : Nat) (entry_count : Nat) : List String :=
  dedupRust
    (((generate_words (seed_from_u64 seed) entry_count).1).mergeSort
      (fun a b => decide (a ≤ b)))

/-! ### Value generation -/

/-- The lazily-evaluated `(start..=end).filter(|_| rng.gen()).take(want)`
pipeline of `random_generate_roaring`: `fuel` is the number of range elements
still available, `cur` the next candidate, `want` the remaining `take` budget;
the iterator stops drawing coins as soon as `want` elements were produced. -/
def filterTake (r : RngState) (fuel cur want : Nat) : List Nat × RngState :=
  match want, fuel with
  | 0, _ => ([], r)
  | _ + 1, 0 => ([], r)
  | w + 1, f + 1 =>
    let g := genBool r
    if g.1 then
      let rest := filterTake g.2 f (cur + 1) w
      (cur :: rest.1, rest.2)
    else
      filterTake g.2 f (cur + 1) (w + 1)
termination_by structural fuel

/-- `random_generate_roaring` from `main.rs`: draw a `u32` interval start,
extend it by a saturating random amount, keep roughly half its integers via
coin flips, cap at `MAX_BITMAP_LEN`, and serialize. The produced elements are
strictly increasing, so the `from_sorted_iter` unwrap always succeeds; through
the opaque codec only the cardinality of the result is visible. -/
def random_generate_roaring (r : RngState) : Val × RngState :=
  let s1 := genU32 r
  let s2 := genU32 s1.2
  let e := min (s1.1 + s2.1) (2 ^ 32 - 1)
  let elems := filterTake s2.2 (e + 1 - s1.1) s1.1 MAX_BITMAP_LEN
  (Val.bitmap elems.1.length, elems.2)

/-! ### Parameters and the grid -/

/-- `grenad::CompressionType` (the three kinds the grid uses). -/
inductive CompressionType where
  | nocompression
  | snappy
  | lz4
deriving DecidableEq, Repr

/-- The `Debug` rendering of the compression kind, as used by
`name_from_params`. -/
def compressionDebug : CompressionType → String
  | .nocompression => "None"
  | .snappy => "Snappy"
  | .lz4 => "Lz4"

/-- The `Parameters` struct of `main.rs`; `index_key_interval` is a
`NonZeroUsize` in the source, modelled as a `Nat` (the grid filters out 0). -/
structure Parameters where
  compression : CompressionType
  index_levels : Nat
  block_size : Nat
  index_key_interval : Nat
deriving DecidableEq, Repr

/-- The candidate compression kinds (`main`, line 199). -/
def compressions : List CompressionType :=
  [.nocompression, .snappy, .lz4]

/-- The candidate index level counts (`main`, line 201). -/
def index_levels_list : List Nat := [0, 1, 2, 3]

/-- The candidate block sizes (`main`, line 202). -/
def block_sizes : List Nat := [8 * 1024, 4 * 1024, 2 * 1024, 1 * 1024, 512]

/-- The candidate index key intervals (`main`, lines 203–204):
`filter_map(NonZeroUsize::new)` keeps exactly the nonzero candidates. -/
def index_key_intervals : List Nat :=
  [32, 24, 16, 12, 8, 4, 2].filterMap (fun n => if n = 0 then none else some n)

/-- The nested loops of `main` (lines 206–220), pushing one `Parameters`
record per combination. -/
def parameters_grid : List Parameters :=
  compressions.flatMap fun compression =>
    index_levels_list.flatMap fun il =>
      block_sizes.flatMap fun bs =>
        index_key_intervals.map fun iki =>
          { compression := compression, index_levels := il, block_size := bs,
            index_key_interval := iki }

/-! ### The store builder -/

/-- `name_from_params` from `main.rs`. -/
def name_from_params (params : Parameters) : String :=
  compressionDebug params.compression ++ "." ++ toString params.index_levels
    ++ "." ++ toString params.block_size ++ "."
    ++ toString params.index_key_interval ++ ".grd"

/-- The writer loop of `random_generate_from_params`: one
`random_generate_roaring` value per word, rng threaded through. -/
def writeStore {α : Type} (r : RngState) : List α → List (Entry α) × RngState
  | [] => ([], r)
  | w :: ws =>
    let v := random_generate_roaring r
    let rest := writeStore v.2 ws
    ({ key := w, val := v.1 } :: rest.1, rest.2)

/-- The destination folder as a map from file path to store contents. -/
abbrev FS (α : Type) : Type := List (String × List (Entry α))

/-- Outcome of one `random_generate_from_params` call: the updated folder,
the path of the returned file handle, and whether the writer ran (i.e. a
physical write happened). -/
structure BuildOutcome (α : Type) where
  fs : FS α
  handle : String
  wrote : Bool

/-- `random_generate_from_params` from `main.rs`: attempt an exclusive
create of the parameter-named file; on success run the writer; on the
`ErrorKind::AlreadyExists` signal — not an error — reopen the existing file
without writing. -/
def random_generate_from_params {α : Type} (r : RngState) (folder : String)
    (fs : FS α) (words : List α) (params : Parameters) : BuildOutcome α :=
  let filepath := folder ++ "/" ++ name_from_params params
  match List.lookup filepath fs with
  | none => ⟨(filepath, (writeStore r words).1) :: fs, filepath, true⟩
  | some _ => ⟨fs, filepath, false⟩

/-! ### The per-task measurement closures of `main` -/

/-- The five `read_method` strategies of `POSSIBLE_READ_METHODS`. -/
inductive ReadMethod where
  | direct
  | readToVec
  | bufreader
  | memoryMapped
  | memoryMappedBufreader
deriving DecidableEq, Repr

/-- The per-tuple measurement closure of `ExtendedRandomTests` (`main`,
lines 240–269): the task re-seeds its own rng from `seed`, then dispatches on
the read method; every branch feeds the same store bytes to `test_cursor`, so
in the embedding (which abstracts the byte source) each branch runs the same
protocol on the same data. -/
def measure_task (seed : Nat) (rm : ReadMethod) (_params : Parameters)
    (store : List (Entry String)) (words : List String) (entry_count : Nat) :
    TcResult :=
  let rng := seed_from_u64 seed
  match rm with
  | .direct => test_cursor rng store words entry_count
  | .readToVec => test_cursor rng store words entry_count
  | .bufreader => test_cursor rng store words entry_count
  | .memoryMapped => test_cursor rng store words entry_count
  | .memoryMappedBufreader => test_cursor rng store words entry_count

/-- The jump-target sequence a measurement task draws: the task's rng is
seeded from `seed` before the read-method dispatch, and every branch hands it
to the same jump loop. -/
def task_jump_targets (seed : Nat) (rm : ReadMethod) (_params : Parameters)
    (words : List String) (entry_count : Nat) : List (Option String) :=
  let rng := seed_from_u64 seed
  match rm with
  | .direct => jumpTargets words rng entry_count
  | .readToVec => jumpTargets words rng entry_count
  | .bufreader => jumpTargets words rng entry_count
  | .memoryMapped => jumpTargets words rng entry_count
  | .memoryMappedBufreader => jumpTargets words rng entry_count

/-- The per-tuple build task of `ExtendedRandomTests` (`main`, lines
226–231): each task re-seeds its own rng from `seed` before building. -/
def build_task (seed : Nat) (folder : String) (fs : FS String)
    (words : List String) (params : Parameters) : BuildOutcome String :=
  random_generate_from_params (seed_from_u64 seed) folder fs words params

/-! ### Result ranking -/

/-- One measurement result: `(Parameters, iteration time, jump time)`, times
in nanoseconds. -/
abbrev BenchResult : Type := Parameters × Nat × Nat

/-- The three `sort_by` modes of `POSSIBLE_SORT_METHODS`. -/
inductive SortBy where
  | iterOnly
  | iterAndJump
  | jumpOnly
deriving DecidableEq, Repr

/-- The sort key each mode extracts (`main`, lines 273–278). -/
def sort_key : SortBy → BenchResult → Nat
  | .iterOnly, (_, iter, _) => iter
  | .iterAndJump, (_, iter, jump) => iter + jump
  | .jumpOnly, (_, _, jump) => jump

/-- Contract of `Vec::sort_unstable_by_key` (Rust standard library, external
to this repository): the call replaces the vector by a permutation of it that
is nondecreasing in the key; the relative order of entries with equal keys is
left unspecified ("this sort is unstable, i.e. may reorder equal elements").
An output satisfies the call's guarantee precisely when this relation holds. -/
def SortUnstableByKeySpec (m : SortBy) (input output : List BenchResult) :
    Prop :=
  input.Perm output ∧
    output.Pairwise (fun a b => sort_key m a ≤ sort_key m b)

/-- Stability of an output order with respect to an input order: entries with
any given sort key appear in the output in their input order. -/
def StableWrt (m : SortBy) (input output : List BenchResult) : Prop :=
  ∀ k, output.filter (fun a => decide (sort_key m a = k)) =
    input.filter (fun a => decide (sort_key m a = k))

/-- A concrete measurement result used to probe the ranking step: tuple A,
iteration time 0, jump time 5. -/
def resultA : BenchResult :=
  ({ compression := .nocompression, index_levels := 0, block_size := 1024,
     index_key_interval := 2 }, 0, 5)

/-- A concrete measurement result used to probe the ranking step: tuple B,
iteration time 1, jump time 5 (same jump time as `resultA`: a tie). -/
def resultB : BenchResult :=
  ({ compression := .snappy, index_levels := 0, block_size := 1024,
     index_key_interval := 2 }, 1, 5)

/-! ### Dense mode (spec-modelled) -/

/-- Modelled from the spec: fixed-width big-endian byte encoding of a
counter value (spec §4.1 dense mode), most significant byte first. -/
def beBytes : Nat → Nat → List Nat
  | 0, _ => []
  | w + 1, n => n / 256 ^ w % 256 :: beBytes w n

/-- Modelled from the spec: the dense mode of the dataset generator is absent
from `src/main.rs` (only word mode exists there); per spec §4.1 it generates
`count` keys as a monotonic fixed-width big-endian encoded counter
`0..count`. -/
def dense_keys (count : Nat) : List (List Nat) :=
  (List.range count).map (beBytes 8)

/-- The two value checks of the measurement protocol: the deserialization
`unwrap` succeeds and `bitmap.len() <= MAX_BITMAP_LEN` holds. -/
abbrev entryBounded {α : Type} (e : Entry α) : Prop :=
  ∃ c, deserialize e.val = some c ∧ c ≤ MAX_BITMAP_LEN

/-- Modelled from the spec: the parameter tuple of Scenario A (spec §8):
no compression, 0 index levels, 4096-byte blocks, index key interval 16. -/
def scenario_params : Parameters :=
  { compression := .nocompression, index_levels := 0, block_size := 4096,
    index_key_interval := 16 }

/-- Modelled from the spec: Scenario A's build — seed 42, the 100 dense
8-byte big-endian keys `0..100`, written through the source's builder into an
empty folder. -/
def scenario_build : BuildOutcome (List Nat) :=
  random_generate_from_params (seed_from_u64 42) "folder" [] (dense_keys 100)
    scenario_params

/-- Modelled from the spec: the store contents Scenario A's build writes. -/
def scenario_store : List (Entry (List Nat)) :=
  (writeStore (seed_from_u64 42) (dense_keys 100)).1

/-! ### Helper lemmas: the iteration phase -/

theorem checkEntry_eq_none_iff {α : Type} [DecidableEq α] (words : List α)
    (i : Nat) (e : Entry α) :
    checkEntry words i e = none ↔
      words.get? i = some e.key ∧ entryBounded e := by
  unfold checkEntry
  cases h : words.get? i with
  | none => simp
  | some w =>
    by_cases hk : e.key = w
    · subst hk
      cases hd : deserialize e.val with
      | none => simp [hd, entryBounded]
      | some c =>
        by_cases hc : c ≤ MAX_BITMAP_LEN <;> simp [hd, hc, entryBounded]
    · simp only [if_neg hk]
      constructor
      · intro hcontra; cases hcontra
      · rintro ⟨hw, -⟩
        cases hw
        exact absurd rfl hk

theorem iterPhase_eq_none_iff {α : Type} [DecidableEq α] (words : List α) :
    ∀ (store : List (Entry α)) (i : Nat),
      iterPhase words store i = none ↔
        ∀ j e, store.get? j = some e → checkEntry words (i + j) e = none := by
  intro store
  induction store with
  | nil => intro i; simp [iterPhase]
  | cons e rest ih =>
    intro i
    rw [iterPhase]
    cases hc : checkEntry words i e with
    | some m =>
      simp only
      constructor
      · intro h; cases h
      · intro h
        have h0 := h 0 e (by simp)
        rw [Nat.add_zero, hc] at h0
        cases h0
    | none =>
      simp only
      rw [ih (i + 1)]
      constructor
      · intro h j e2 hj
        cases j with
        | zero =>
          simp only [List.get?] at hj
          cases hj
          rw [Nat.add_zero]
          exact hc
        | succ j =>
          have := h j e2 (by simpa using hj)
          rwa [show i + 1 + j = i + (j + 1) by omega] at this
      · intro h j e2 hj
        have := h (j + 1) e2 (by simpa using hj)
        rwa [show i + (j + 1) = i + 1 + j by omega] at this

theorem iterPhase_zero_eq_none_iff {α : Type} [DecidableEq α] (words : List α)
    (store : List (Entry α)) :
    iterPhase words store 0 = none ↔
      store.map Entry.key = words.take store.length ∧
        store.Forall entryBounded := by
  rw [iterPhase_eq_none_iff]
  constructor
  · intro h
    refine ⟨?_, ?_⟩
    · apply List.ext_get?
      intro n
      rw [List.get?_map]
      cases hn : store.get? n with
      | none =>
        have hlen : store.length ≤ n := by
          by_contra hcon
          obtain ⟨e, he⟩ : ∃ e, store.get? n = some e := by
            rcases List.get?_eq_get (l := store) (n := n) (by omega) with hg
            exact ⟨_, hg⟩
          rw [hn] at he; cases he
        have : (words.take store.length).length ≤ n := by
          calc (words.take store.length).length ≤ store.length := by
                rw [List.length_take]; exact Nat.min_le_left _ _
            _ ≤ n := hlen
        rw [List.get?_eq_none.mpr this]
        rfl
      | some e =>
        have hck := (checkEntry_eq_none_iff words (0 + n) e).mp (h n e hn)
        have hlt : n < store.length := by
          rcases List.get?_eq_some.mp hn with ⟨hl, -⟩
          exact hl
        rw [List.get?_take hlt]
        rw [Nat.zero_add] at hck
        rw [hck.1]
        rfl
    · rw [List.forall_iff_forall_mem]
      intro e he
      obtain ⟨n, hn⟩ := List.get?_of_mem he
      exact ((checkEntry_eq_none_iff words (0 + n) e).mp (h n e hn)).2
  · rintro ⟨hmap, hbd⟩ j e hj
    rw [Nat.zero_add, checkEntry_eq_none_iff]
    have hjlt : j < store.length := by
      rcases List.get?_eq_some.mp hj with ⟨hl, -⟩
      exact hl
    constructor
    · have hkey : (store.map Entry.key).get? j = some e.key := by
        rw [List.get?_map, hj]; rfl
      rw [hmap, List.get?_take hjlt] at hkey
      exact hkey
    · rcases List.get?_eq_some.mp hj with ⟨hl, hget⟩
      have hmem : e ∈ store := hget ▸ List.get_mem store j hl
      exact List.forall_iff_forall_mem.mp hbd e hmem

/-! ### Helper lemmas: seeking -/

theorem seekGE_key_eq_of_mem {α : Type} [LinearOrder α] :
    ∀ (store : List (Entry α)), (store.map Entry.key).Pairwise (· < ·) →
      ∀ w ∈ store.map Entry.key,
        Option.map Entry.key (seekGE store w) = some w := by
  intro store
  induction store with
  | nil => intro _ w hw; cases hw
  | cons e rest ih =>
    intro hsort w hw
    rw [List.map_cons, List.pairwise_cons] at hsort
    rw [List.map_cons, List.mem_cons] at hw
    unfold seekGE
    rw [List.find?_cons]
    rcases hw with rfl | hw
    · rw [decide_eq_true (le_refl e.key)]
      rfl
    · have hlt : e.key < w := hsort.1 w hw
      have hnle : ¬w ≤ e.key := not_le.mpr hlt
      rw [decide_eq_false hnle]
      exact ih hsort.2 w hw

theorem seekGE_map_key_congr {α : Type} [LinearOrder α] :
    ∀ (s1 s2 : List (Entry α)), s1.map Entry.key = s2.map Entry.key →
      ∀ w, Option.map Entry.key (seekGE s1 w) =
        Option.map Entry.key (seekGE s2 w) := by
  intro s1
  induction s1 with
  | nil =>
    intro s2 h w
    rw [List.map_nil] at h
    rw [List.map_eq_nil_iff.mp h.symm]
  | cons e1 t1 ih =>
    intro s2 h w
    cases s2 with
    | nil => rw [List.map_nil] at h; cases h
    | cons e2 t2 =>
      simp only [List.map_cons, List.cons.injEq] at h
      obtain ⟨hk, ht⟩ := h
      unfold seekGE
      rw [List.find?_cons, List.find?_cons, hk]
      cases hd : decide (w ≤ e2.key) with
      | true => simp [hk]
      | false => exact ih t2 ht w

/-! ### Helper lemmas: the jump phase -/

theorem choose_fst_mem {α : Type} (r : RngState) (l : List α) (h : l ≠ []) :
    ∃ w, (choose r l).1 = some w ∧ w ∈ l := by
  cases l with
  | nil => exact absurd rfl h
  | cons a t =>
    have hlen : 0 < (a :: t).length := by simp
    have hlt : (genBelow r (a :: t).length).1 < (a :: t).length := by
      simp only [genBelow]
      exact Nat.mod_lt _ hlen
    obtain ⟨hl, hget⟩ := List.get?_eq_some.mp (List.get?_eq_get hlt)
    refine ⟨_, ?_, hget ▸ List.get_mem _ _ hl⟩
    simp only [choose]
    exact List.get?_eq_get hlt

theorem jumpTargets_forall_mem {α : Type} (words : List α) (h : words ≠ []) :
    ∀ (n : Nat) (r : RngState),
      ∀ ow ∈ jumpTargets words r n, ∃ w, ow = some w ∧ w ∈ words := by
  intro n
  induction n with
  | zero => intro r ow how; cases how
  | succ n ih =>
    intro r ow how
    simp only [jumpTargets, List.mem_cons] at how
    rcases how with rfl | how
    · exact choose_fst_mem r words h
    · exact ih (choose r words).2 ow how

theorem jumpStepCheck_eq_none_iff_bounded {α : Type} [DecidableEq α] [LinearOrder α]
    (store : List (Entry α)) (hb : store.Forall entryBounded) (ow : Option α) :
    jumpStepCheck store ow = none ↔
      ∃ w, ow = some w ∧ Option.map Entry.key (seekGE store w) = some w := by
  cases ow with
  | none => simp [jumpStepCheck]
  | some w =>
    unfold jumpStepCheck
    cases hs : seekGE store w with
    | none => simp [hs]
    | some e =>
      have he : e ∈ store := List.mem_of_find?_eq_some hs
      obtain ⟨c, hc, hcle⟩ := List.forall_iff_forall_mem.mp hb e he
      by_cases hk : e.key = w
      · simp [hs, hk, hc, hcle]
      · simp [hs, hk]

theorem jumpPhase_eq_none_iff {α : Type} [DecidableEq α] [LinearOrder α]
    (store : List (Entry α)) (words : List α) :
    ∀ (n : Nat) (r : RngState),
      jumpPhase store words r n = none ↔
        ∀ ow ∈ jumpTargets words r n, jumpStepCheck store ow = none := by
  intro n
  induction n with
  | zero => intro r; simp [jumpPhase, jumpTargets]
  | succ n ih =>
    intro r
    simp only [jumpPhase, jumpTargets]
    rw [List.forall_mem_cons]
    cases hs : jumpStepCheck store (choose r words).1 with
    | some m => simp
    | none => simp [ih ((choose r words).2)]

/-! ### Helper lemmas: the whole protocol -/

theorem test_cursor_eq_ok_iff {α : Type} [DecidableEq α] [LinearOrder α] (rng : RngState)
    (store : List (Entry α)) (words : List α) (n : Nat) :
    test_cursor rng store words n = .ok ↔
      iterPhase words store 0 = none ∧ jumpPhase store words rng n = none := by
  unfold test_cursor
  cases h1 : iterPhase words store 0 <;>
    cases h2 : jumpPhase store words rng n <;> simp [h1, h2]

theorem test_cursor_ne_ok {α : Type} [DecidableEq α] [LinearOrder α] {rng : RngState}
    {store : List (Entry α)} {words : List α} {n : Nat}
    (h : test_cursor rng store words n ≠ .ok) :
    ∃ m, test_cursor rng store words n = .panicked m := by
  cases ht : test_cursor rng store words n with
  | ok => exact absurd ht h
  | panicked m => exact ⟨m, rfl⟩

/-! ### Helper lemmas: the generated values and stores -/

theorem filterTake_length_le :
    ∀ (fuel : Nat) (r : RngState) (cur want : Nat),
      ((filterTake r fuel cur want).1).length ≤ want := by
  intro fuel
  induction fuel with
  | zero => intro r cur want; cases want <;> simp [filterTake]
  | succ f ih =>
    intro r cur want
    cases want with
    | zero => simp [filterTake]
    | succ w =>
      simp only [filterTake]
      by_cases hb : (genBool r).1 = true
      · rw [if_pos hb]
        simpa using ih (genBool r).2 (cur + 1) w
      · rw [if_neg hb]
        exact ih (genBool r).2 (cur + 1) (w + 1)

theorem random_generate_roaring_bounded (r : RngState) :
    ∃ c, deserialize (random_generate_roaring r).1 = some c ∧
      c ≤ MAX_BITMAP_LEN := by
  refine ⟨_, rfl, ?_⟩
  exact filterTake_length_le _ _ _ _

theorem writeStore_map_key {α : Type} :
    ∀ (r : RngState) (ws : List α),
      ((writeStore r ws).1).map Entry.key = ws := by
  intro r ws
  induction ws generalizing r with
  | nil => rfl
  | cons w t ih =>
    simp only [writeStore, List.map_cons]
    rw [ih]

theorem writeStore_bounded {α : Type} :
    ∀ (r : RngState) (ws : List α),
      ((writeStore r ws).1).Forall entryBounded := by
  intro r ws
  induction ws generalizing r with
  | nil => exact trivial
  | cons w t ih =>
    simp only [writeStore, List.forall_cons]
    exact ⟨random_generate_roaring_bounded r, ih _⟩

/-! ### Helper lemmas: dataset generation -/

theorem dedupRust_mem {α : Type} [DecidableEq α] :
    ∀ (l : List α) (x : α), x ∈ dedupRust l → x ∈ l := by
  intro l
  induction l with
  | nil => intro x hx; cases hx
  | cons a t ih =>
    cases t with
    | nil => intro x hx; exact hx
    | cons b rest =>
      intro x hx
      rw [dedupRust] at hx
      by_cases hab : a = b
      · rw [if_pos hab] at hx
        exact List.mem_cons_of_mem a (ih x hx)
      · rw [if_neg hab] at hx
        rcases List.mem_cons.mp hx with rfl | hx
        · exact List.mem_cons_self _ _
        · exact List.mem_cons_of_mem a (ih x hx)

theorem dedupRust_length_le {α : Type} [DecidableEq α] :
    ∀ l : List α, (dedupRust l).length ≤ l.length := by
  intro l
  induction l with
  | nil => exact le_refl _
  | cons a t ih =>
    cases t with
    | nil => exact le_refl _
    | cons b rest =>
      rw [dedupRust]
      by_cases hab : a = b
      · rw [if_pos hab]
        exact le_trans ih (by simp)
      · rw [if_neg hab]
        simpa using ih

theorem dedupRust_sorted {α : Type} [DecidableEq α] [LinearOrder α] :
    ∀ l : List α, l.Pairwise (· ≤ ·) → (dedupRust l).Pairwise (· < ·) := by
  intro l
  induction l with
  | nil => intro _; exact List.Pairwise.nil
  | cons a t ih =>
    cases t with
    | nil => intro _; exact List.pairwise_singleton _ _
    | cons b rest =>
      intro hp
      have hp2 : (b :: rest).Pairwise (· ≤ ·) := List.Pairwise.of_cons hp
      rw [dedupRust]
      by_cases hab : a = b
      · rw [if_pos hab]
        exact ih hp2
      · rw [if_neg hab]
        rw [List.pairwise_cons]
        refine ⟨?_, ih hp2⟩
        intro x hx
        have hxmem : x ∈ b :: rest := dedupRust_mem _ x hx
        have haltb : a < b :=
          lt_of_le_of_ne
            (List.rel_of_pairwise_cons hp (List.mem_cons_self b rest)) hab
        rcases List.mem_cons.mp hxmem with rfl | hxr
        · exact haltb
        · exact lt_of_lt_of_le haltb (List.rel_of_pairwise_cons hp2 hxr)

theorem gen_range_3_15 (r : RngState) :
    3 ≤ (gen_range r 3 15).1 ∧ (gen_range r 3 15).1 ≤ 15 := by
  simp only [gen_range]
  have : (rngNext r).1 % (15 + 1 - 3) < 15 + 1 - 3 :=
    Nat.mod_lt _ (by norm_num)
  omega

theorem gabbleChars_length :
    ∀ (n : Nat) (r : RngState), ((gabbleChars r n).1).length = n := by
  intro n
  induction n with
  | zero => intro r; rfl
  | succ n ih =>
    intro r
    simp only [gabbleChars, List.length_cons]
    rw [ih]

theorem gabble_generate_length (r : RngState) (len : Nat) :
    ((gabble_generate r len).1).length = len := by
  show ((gabbleChars r len).1).length = len
  exact gabbleChars_length len r

theorem generate_words_length :
    ∀ (n : Nat) (r : RngState), ((generate_words r n).1).length = n := by
  intro n
  induction n with
  | zero => intro r; rfl
  | succ n ih =>
    intro r
    simp only [generate_words, List.length_cons]
    rw [ih]

theorem generate_words_token_lengths :
    ∀ (n : Nat) (r : RngState),
      ((generate_words r n).1).Forall
        (fun w => 3 ≤ w.length ∧ w.length ≤ 15) := by
  intro n
  induction n with
  | zero => intro r; exact trivial
  | succ n ih =>
    intro r
    simp only [generate_words, List.forall_cons]
    refine ⟨?_, ih _⟩
    rw [gabble_generate_length]
    exact gen_range_3_15 r

theorem dataset_words_sorted (seed n : Nat) :
    (dataset_words seed n).Pairwise (· < ·) := by
  unfold dataset_words
  apply dedupRust_sorted
  have := @List.sorted_mergeSort String (fun a b => decide (a ≤ b))
    (fun a b c hab hbc => by
      simp only [decide_eq_true_eq] at *
      exact le_trans hab hbc)
    (fun a b => by
      simp only [Bool.or_eq_true, decide_eq_true_eq]
      exact le_total a b)
    ((generate_words (seed_from_u64 seed) n).1)
  exact this.imp (fun h => by simpa using h)

theorem dataset_words_length_le (seed n : Nat) :
    (dataset_words seed n).length ≤ n := by
  unfold dataset_words
  refine le_trans (dedupRust_length_le _) ?_
  rw [(List.mergeSort_perm _ _).length_eq]
  exact le_of_eq (generate_words_length n _)

/-! ### Helper lemmas: big-endian encoding (dense mode) -/

theorem beBytes_mod : ∀ (w n : Nat), beBytes w (n % 256 ^ w) = beBytes w n := by
  intro w
  induction w with
  | zero => intro n; rfl
  | succ w ih =>
    intro n
    rw [beBytes, beBytes]
    have hsplit : 256 ^ (w + 1) = 256 ^ w * 256 := pow_succ 256 w
    congr 1
    · rw [hsplit, Nat.mod_mul_right_div_self]
      exact Nat.mod_mod_of_dvd _ (dvd_refl 256)
    · have h1 : n % 256 ^ (w + 1) % 256 ^ w = n % 256 ^ w :=
        Nat.mod_mod_of_dvd n (pow_dvd_pow 256 (Nat.le_succ w))
      calc beBytes w (n % 256 ^ (w + 1))
          = beBytes w (n % 256 ^ (w + 1) % 256 ^ w) := (ih _).symm
        _ = beBytes w (n % 256 ^ w) := by rw [h1]
        _ = beBytes w n := ih n

theorem beBytes_lt : ∀ (w n m : Nat), n < m → m < 256 ^ w →
    List.Lex (· < ·) (beBytes w n) (beBytes w m) := by
  intro w
  induction w with
  | zero =>
    intro n m hnm hm
    norm_num at hm
    omega
  | succ w ih =>
    intro n m hnm hm
    rw [beBytes, beBytes]
    have hpow : (0 : Nat) < 256 ^ w := pow_pos (by norm_num) w
    have hmlt : m / 256 ^ w < 256 := by
      rw [Nat.div_lt_iff_lt_mul hpow]
      calc m < 256 ^ (w + 1) := hm
        _ = 256 * 256 ^ w := by rw [pow_succ, Nat.mul_comm]
    have hnlt : n / 256 ^ w < 256 :=
      lt_of_le_of_lt (Nat.div_le_div_right (le_of_lt hnm)) hmlt
    rw [Nat.mod_eq_of_lt hmlt, Nat.mod_eq_of_lt hnlt]
    rcases Nat.lt_or_ge (n / 256 ^ w) (m / 256 ^ w) with hlt | hge
    · exact List.Lex.rel hlt
    · have hdiveq : n / 256 ^ w = m / 256 ^ w :=
        le_antisymm (Nat.div_le_div_right (le_of_lt hnm)) hge
      rw [hdiveq]
      apply List.Lex.cons
      rw [← beBytes_mod w n, ← beBytes_mod w m]
      apply ih
      · have hn := Nat.div_add_mod n (256 ^ w)
        have hm2 := Nat.div_add_mod m (256 ^ w)
        rw [← hdiveq] at hm2
        have hsum : 256 ^ w * (n / 256 ^ w) + n % 256 ^ w <
            256 ^ w * (n / 256 ^ w) + m % 256 ^ w := by
          rw [hn, hm2]
          exact hnm
        exact Nat.lt_of_add_lt_add_left hsum
      · exact Nat.mod_lt _ hpow

theorem dense_keys_sorted (count : Nat) (h : count ≤ 2 ^ 64) :
    (dense_keys count).Pairwise (· < ·) := by
  unfold dense_keys
  rw [List.pairwise_map]
  apply List.Pairwise.imp_of_mem ?_ (List.pairwise_lt_range count)
  intro a b _ hb hab
  have hb64 : b < 256 ^ 8 := by
    have hbc : b < count := List.mem_range.mp hb
    have hpow : (256 : Nat) ^ 8 = 2 ^ 64 := by norm_num
    rw [hpow]
    exact lt_of_lt_of_le hbc h
  exact beBytes_lt 8 a b hab hb64

/-! ### Helper lemmas: the parameter grid -/

theorem parameters_grid_nodup : parameters_grid.Nodup := by
  unfold parameters_grid
  rw [List.nodup_flatMap]
  constructor
  · intro c _
    rw [List.nodup_flatMap]
    constructor
    · intro il _
      rw [List.nodup_flatMap]
      constructor
      · intro bs _
        apply List.Nodup.map
        · intro x y hxy
          simpa using congrArg Parameters.index_key_interval hxy
        · decide
      · have hbs : block_sizes.Nodup := by decide
        refine hbs.imp ?_
        intro a b hab x hxa hxb
        rcases List.mem_map.mp hxa with ⟨i1, -, rfl⟩
        rcases List.mem_map.mp hxb with ⟨i2, -, heq⟩
        exact hab (congrArg Parameters.block_size heq).symm
    · have hil : index_levels_list.Nodup := by decide
      refine hil.imp ?_
      intro a b hab x hxa hxb
      simp only [List.mem_flatMap, List.mem_map] at hxa hxb
      obtain ⟨bs1, -, i1, -, rfl⟩ := hxa
      obtain ⟨bs2, -, i2, -, heq⟩ := hxb
      exact hab (congrArg Parameters.index_levels heq).symm
  · have hc : compressions.Nodup := by decide
    refine hc.imp ?_
    intro a b hab x hxa hxb
    simp only [List.mem_flatMap, List.mem_map] at hxa hxb
    obtain ⟨il1, -, bs1, -, i1, -, rfl⟩ := hxa
    obtain ⟨il2, -, bs2, -, i2, -, heq⟩ := hxb
    exact hab (congrArg Parameters.compression heq).symm

/-! ### Claim theorems -/

/-- C7: the sequence of parameter tuples produced by the nested loops is
exactly the Cartesian product of the fixed candidate lists (compression
kinds, index levels, block sizes, and the key intervals pre-filtered to
strictly positive values), and all produced tuples are pairwise distinct
without any deduplication step. -/
theorem grid_is_cartesian_product :
    (∀ p : Parameters,
      p ∈ parameters_grid ↔
        p.compression ∈ compressions ∧ p.index_levels ∈ index_levels_list ∧
          p.block_size ∈ block_sizes ∧
          p.index_key_interval ∈ index_key_intervals) ∧
    parameters_grid.Nodup ∧
    index_key_intervals.Forall (fun n => 0 < n) := by
  refine ⟨?_, parameters_grid_nodup, by decide⟩
  · intro p
    constructor
    · intro hp
      unfold parameters_grid at hp
      simp only [List.mem_flatMap, List.mem_map] at hp
      obtain ⟨c, hc, il, hil, bs, hbs, iki, hiki, hp⟩ := hp
      cases hp
      exact ⟨hc, hil, hbs, hiki⟩
    · rintro ⟨hc, hil, hbs, hiki⟩
      unfold parameters_grid
      simp only [List.mem_flatMap, List.mem_map]
      exact ⟨p.compression, hc, p.index_levels, hil, p.block_size, hbs,
        p.index_key_interval, hiki, rfl⟩

/-- C4: building twice with the same folder and parameters performs at most
one physical write; the second call hits the already-exists signal (not an
error), runs no writer, and returns a handle to the same artifact, whose
path is a pure function of the four parameter fields. -/
theorem build_idempotent (r1 r2 : RngState) (folder : String)
    (fs : FS String) (words : List String) (params : Parameters) :
    let o1 := random_generate_from_params r1 folder fs words params
    let o2 := random_generate_from_params r2 folder o1.fs words params
    o2.wrote = false ∧ o2.fs = o1.fs ∧ o2.handle = o1.handle ∧
      o1.handle = folder ++ "/" ++ name_from_params params ∧
      (cond o1.wrote 1 0) + (cond o2.wrote 1 0) ≤ 1 := by
  intro o1 o2
  cases h : List.lookup (folder ++ "/" ++ name_from_params params) fs with
  | none =>
    have ho1 : o1 = ⟨(folder ++ "/" ++ name_from_params params,
        (writeStore r1 words).1) :: fs,
        folder ++ "/" ++ name_from_params params, true⟩ := by
      show random_generate_from_params r1 folder fs words params = _
      simp only [random_generate_from_params, h]
    have ho2 : o2 = ⟨o1.fs, folder ++ "/" ++ name_from_params params,
        false⟩ := by
      show random_generate_from_params r2 folder o1.fs words params = _
      simp [random_generate_from_params, ho1, List.lookup]
    rw [ho2, ho1]
    simp
  | some store =>
    have ho1 : o1 = ⟨fs, folder ++ "/" ++ name_from_params params, false⟩ := by
      show random_generate_from_params r1 folder fs words params = _
      simp only [random_generate_from_params, h]
    have ho2 : o2 = ⟨fs, folder ++ "/" ++ name_from_params params,
        false⟩ := by
      show random_generate_from_params r2 folder o1.fs words params = _
      simp [random_generate_from_params, ho1, h]
    rw [ho2, ho1]
    simp

/-- C5: for every seed and count, the generated dataset's key sequence is
strictly sorted and duplicate-free with size at most `count` (word mode
draws tokens of length in `[3, 15]`, then sorts and deduplicates), and every
synthesized value deserializes to a set of cardinality at most
`MAX_BITMAP_LEN`. -/
theorem generator_postcondition (seed count : Nat) (r : RngState) :
    (dataset_words seed count).Pairwise (· < ·) ∧
    (dataset_words seed count).Nodup ∧
    (dataset_words seed count).length ≤ count ∧
    ((generate_words (seed_from_u64 seed) count).1).Forall
      (fun w => 3 ≤ w.length ∧ w.length ≤ 15) ∧
    ((writeStore r (dataset_words seed count)).1).Forall entryBounded :=
  ⟨dataset_words_sorted seed count,
    (dataset_words_sorted seed count).imp (fun h => ne_of_lt h),
    dataset_words_length_le seed count,
    generate_words_token_lengths count _,
    writeStore_bounded r _⟩

/-- C1: for every store built from the dataset, the full-iteration
assertions all pass — at each sequential position the store yields exactly
the dataset's key there — and for every key of the dataset, the lower-bound
seek returns an entry whose key equals the target exactly. -/
theorem round_trip (seed count : Nat) (r : RngState) :
    ((writeStore r (dataset_words seed count)).1).map Entry.key =
        dataset_words seed count ∧
    iterPhase (dataset_words seed count)
        (writeStore r (dataset_words seed count)).1 0 = none ∧
    (dataset_words seed count).Forall (fun w =>
      Option.map Entry.key
        (seekGE (writeStore r (dataset_words seed count)).1 w) = some w) := by
  have hmap := writeStore_map_key r (dataset_words seed count)
  have hsort := dataset_words_sorted seed count
  have hbd := writeStore_bounded r (dataset_words seed count)
  refine ⟨hmap, ?_, ?_⟩
  · rw [iterPhase_zero_eq_none_iff]
    refine ⟨?_, hbd⟩
    have hlen : ((writeStore r (dataset_words seed count)).1).length =
        (dataset_words seed count).length := by
      have := congrArg List.length hmap
      simpa using this
    rw [hmap, hlen, List.take_length]
  · rw [List.forall_iff_forall_mem]
    intro w hw
    apply seekGE_key_eq_of_mem
    · rw [hmap]; exact hsort
    · rw [hmap]; exact hw

/-- C6: if, in either measurement phase, any retrieved key differs from the
expected dataset key, or any retrieved value decodes to a cardinality above
`MAX_BITMAP_LEN`, the run aborts with a panic — the violation is never
tolerated. -/
theorem fail_fast_on_violation (rng : RngState) (store : List (Entry String))
    (words : List String) (n : Nat)
    (h :
      (∃ j e w, store.get? j = some e ∧ words.get? j = some w ∧
        (e.key ≠ w ∨ ∃ c, deserialize e.val = some c ∧ MAX_BITMAP_LEN < c)) ∨
      (∃ ow ∈ jumpTargets words rng n, ∃ w, ow = some w ∧
        ∃ e, seekGE store w = some e ∧
          (e.key ≠ w ∨ ∃ c, deserialize e.val = some c ∧ MAX_BITMAP_LEN < c))) :
    ∃ m, test_cursor rng store words n = .panicked m := by
  apply test_cursor_ne_ok
  intro hok
  rw [test_cursor_eq_ok_iff] at hok
  obtain ⟨hiter, hjump⟩ := hok
  rcases h with ⟨j, e, w, hj, hw, hviol⟩ | ⟨ow, how, w, rfl, e, hs, hviol⟩
  · rw [iterPhase_eq_none_iff] at hiter
    have hck := (checkEntry_eq_none_iff words (0 + j) e).mp (hiter j e hj)
    rw [Nat.zero_add, hw] at hck
    obtain ⟨hkey, c, hc, hcle⟩ := hck
    rcases hviol with hne | ⟨c2, hc2, hc2gt⟩
    · exact hne (Option.some.inj hkey).symm
    · rw [hc] at hc2
      have : c = c2 := Option.some.inj hc2
      omega
  · rw [jumpPhase_eq_none_iff] at hjump
    have hchk := hjump (some w) how
    simp only [jumpStepCheck, hs] at hchk
    rcases hviol with hne | ⟨c2, hc2, hc2gt⟩
    · rw [if_neg hne] at hchk
      cases hchk
    · by_cases hk : e.key = w
      · rw [if_pos hk, hc2] at hchk
        have hred : (if c2 ≤ MAX_BITMAP_LEN then none
            else some "bitmap len exceeds bound") = (none : Option String) :=
          hchk
        rw [if_neg (by omega : ¬c2 ≤ MAX_BITMAP_LEN)] at hred
        cases hred
      · rw [if_neg hk] at hchk
        cases hchk

/-- Witness for the C6 theorem: a store whose single value decodes to
cardinality `MAX_BITMAP_LEN + 1` satisfies the violation hypothesis, and the
run panics. -/
theorem fail_fast_on_violation_witness :
    (∃ j e w,
        ([{ key := "a", val := Val.bitmap (MAX_BITMAP_LEN + 1) }] :
            List (Entry String)).get? j = some e ∧
          (["a"] : List String).get? j = some w ∧
          (e.key ≠ w ∨
            ∃ c, deserialize e.val = some c ∧ MAX_BITMAP_LEN < c)) ∧
    ∃ m, test_cursor (seed_from_u64 42)
        [{ key := "a", val := Val.bitmap (MAX_BITMAP_LEN + 1) }] ["a"] 0 =
      .panicked m := by
  have hv : ∃ j e w,
      ([{ key := "a", val := Val.bitmap (MAX_BITMAP_LEN + 1) }] :
          List (Entry String)).get? j = some e ∧
        (["a"] : List String).get? j = some w ∧
        (e.key ≠ w ∨ ∃ c, deserialize e.val = some c ∧ MAX_BITMAP_LEN < c) :=
    ⟨0, { key := "a", val := Val.bitmap (MAX_BITMAP_LEN + 1) }, "a", rfl, rfl,
      Or.inr ⟨MAX_BITMAP_LEN + 1, rfl, Nat.lt_succ_self _⟩⟩
  exact ⟨hv, fail_fast_on_violation (seed_from_u64 42) _ ["a"] 0 (Or.inl hv)⟩

/-- C9 counterexample: a store whose entry sequence matches the dataset and
whose single value is a valid serialized bitmap (it deserializes
successfully), yet `test_cursor` panics, because the decoded cardinality
exceeds `MAX_BITMAP_LEN` — refuting the claimed "precisely when". -/
theorem measurement_totality_counterexample :
    ([{ key := "a", val := Val.bitmap (MAX_BITMAP_LEN + 1) }] :
        List (Entry String)).map Entry.key = ["a"] ∧
    (deserialize (Val.bitmap (MAX_BITMAP_LEN + 1))).isSome = true ∧
    test_cursor (seed_from_u64 42)
        [{ key := "a", val := Val.bitmap (MAX_BITMAP_LEN + 1) }] ["a"] 0 ≠
      .ok := by
  refine ⟨rfl, rfl, ?_⟩
  decide

/-- C9 (amended): `test_cursor` completes without panic when the store's
entry sequence equals the (strictly sorted) dataset key sequence, every
stored value deserializes with cardinality within `MAX_BITMAP_LEN`, and the
dataset is nonempty or the jump count is zero; conversely, a panic-free run
guarantees only that the store's key sequence is a position-wise matching
prefix of the dataset with all stored values decodable and within bound.
Failures surface as panics (`TcResult.panicked`), never as error returns. -/
theorem measurement_totality_characterization (rng : RngState)
    (store : List (Entry String)) (words : List String) (n : Nat) :
    ((store.map Entry.key = words ∧ words.Pairwise (· < ·) ∧
        store.Forall entryBounded ∧ (words ≠ [] ∨ n = 0)) →
      test_cursor rng store words n = .ok) ∧
    (test_cursor rng store words n = .ok →
      store.map Entry.key = words.take store.length ∧
        store.Forall entryBounded) := by
  constructor
  · rintro ⟨hkeys, hsort, hbd, hne⟩
    rw [test_cursor_eq_ok_iff]
    constructor
    · rw [iterPhase_zero_eq_none_iff]
      refine ⟨?_, hbd⟩
      have hlen : store.length = words.length := by
        have := congrArg List.length hkeys
        simpa using this
      rw [hkeys, hlen, List.take_length]
    · rw [jumpPhase_eq_none_iff]
      intro ow how
      rcases hne with hne | rfl
      · obtain ⟨w, rfl, hw⟩ := jumpTargets_forall_mem words hne n rng ow how
        rw [jumpStepCheck_eq_none_iff_bounded store hbd]
        refine ⟨w, rfl, ?_⟩
        exact seekGE_key_eq_of_mem store (hkeys ▸ hsort) w (hkeys ▸ hw)
      · cases how
  · intro hok
    rw [test_cursor_eq_ok_iff] at hok
    exact (iterPhase_zero_eq_none_iff words store).mp hok.1

/-- Witness for the amended C9 theorem: a one-entry store matching a
one-word dataset with a small bounded value runs to completion. -/
theorem measurement_totality_characterization_witness :
    (([{ key := "a", val := Val.bitmap 1 }] :
        List (Entry String)).map Entry.key = ["a"] ∧
      (["a"] : List String).Pairwise (· < ·) ∧
      ([{ key := "a", val := Val.bitmap 1 }] :
          List (Entry String)).Forall entryBounded ∧
      ((["a"] : List String) ≠ [] ∨ (3 : Nat) = 0)) ∧
    test_cursor (seed_from_u64 7)
        [{ key := "a", val := Val.bitmap 1 }] ["a"] 3 = .ok := by
  have hb : ([{ key := "a", val := Val.bitmap 1 }] :
      List (Entry String)).Forall entryBounded := by
    simp only [List.forall_cons]
    exact ⟨⟨1, rfl, by decide⟩, trivial⟩
  have hh : ([{ key := "a", val := Val.bitmap 1 }] :
      List (Entry String)).map Entry.key = ["a"] ∧
      (["a"] : List String).Pairwise (· < ·) ∧
      ([{ key := "a", val := Val.bitmap 1 }] :
          List (Entry String)).Forall entryBounded ∧
      ((["a"] : List String) ≠ [] ∨ (3 : Nat) = 0) :=
    ⟨rfl, List.pairwise_singleton _ _, hb, Or.inl (by simp)⟩
  exact ⟨hh,
    (measurement_totality_characterization (seed_from_u64 7) _ _ 3).1 hh⟩

/-- C10: the measurement never exact-matches value bytes — for two stores
with identical key sequences whose values all deserialize within the bound,
the run succeeds on one exactly when it succeeds on the other, regardless of
the value payloads. -/
theorem values_never_exact_matched (rng : RngState)
    (s1 s2 : List (Entry String)) (words : List String) (n : Nat)
    (hk : s1.map Entry.key = s2.map Entry.key)
    (hb1 : s1.Forall entryBounded) (hb2 : s2.Forall entryBounded) :
    (test_cursor rng s1 words n = .ok ↔ test_cursor rng s2 words n = .ok) := by
  rw [test_cursor_eq_ok_iff, test_cursor_eq_ok_iff]
  have hlen : s1.length = s2.length := by
    have := congrArg List.length hk
    simpa using this
  have hiter : iterPhase words s1 0 = none ↔ iterPhase words s2 0 = none := by
    rw [iterPhase_zero_eq_none_iff, iterPhase_zero_eq_none_iff, hk, hlen]
    simp [hb1, hb2]
  have hstep : ∀ ow, (jumpStepCheck s1 ow = none ↔ jumpStepCheck s2 ow = none) := by
    intro ow
    rw [jumpStepCheck_eq_none_iff_bounded s1 hb1,
      jumpStepCheck_eq_none_iff_bounded s2 hb2]
    constructor
    · rintro ⟨w, rfl, hmap⟩
      exact ⟨w, rfl, by rw [← seekGE_map_key_congr s1 s2 hk w]; exact hmap⟩
    · rintro ⟨w, rfl, hmap⟩
      exact ⟨w, rfl, by rw [seekGE_map_key_congr s1 s2 hk w]; exact hmap⟩
  have hjump : jumpPhase s1 words rng n = none ↔
      jumpPhase s2 words rng n = none := by
    rw [jumpPhase_eq_none_iff, jumpPhase_eq_none_iff]
    constructor
    · intro h ow how
      exact (hstep ow).mp (h ow how)
    · intro h ow how
      exact (hstep ow).mpr (h ow how)
  rw [hiter, hjump]

/-- Witness for the C10 theorem: two one-entry stores with the same key but
different bounded values succeed together. -/
theorem values_never_exact_matched_witness :
    (([{ key := "a", val := Val.bitmap 1 }] :
        List (Entry String)).map Entry.key =
      ([{ key := "a", val := Val.bitmap 2 }] :
        List (Entry String)).map Entry.key) ∧
    (test_cursor (seed_from_u64 3) [{ key := "a", val := Val.bitmap 1 }]
        ["a"] 1 = .ok ↔
      test_cursor (seed_from_u64 3) [{ key := "a", val := Val.bitmap 2 }]
        ["a"] 1 = .ok) := by
  have hb1 : ([{ key := "a", val := Val.bitmap 1 }] :
      List (Entry String)).Forall entryBounded := by
    simp only [List.forall_cons]
    exact ⟨⟨1, rfl, by decide⟩, trivial⟩
  have hb2 : ([{ key := "a", val := Val.bitmap 2 }] :
      List (Entry String)).Forall entryBounded := by
    simp only [List.forall_cons]
    exact ⟨⟨2, rfl, by decide⟩, trivial⟩
  exact ⟨rfl,
    values_never_exact_matched (seed_from_u64 3) _ _ ["a"] 1 rfl hb1 hb2⟩

/-- C3: determinism — the generated dataset is a pure function of seed and
count (two executions coincide); every build task reseeds from the same seed,
so the store contents written for every parameter tuple are identical; and
every measurement task reseeds from the same seed, so the drawn jump-target
sequence is identical for every parameter tuple and read strategy. -/
theorem determinism (seed count n : Nat) (folder : String)
    (words : List String) :
    dataset_words seed count = dataset_words seed count ∧
    (∀ p : Parameters,
      List.lookup (build_task seed folder [] words p).handle
          (build_task seed folder [] words p).fs =
        some (writeStore (seed_from_u64 seed) words).1) ∧
    (∀ (p q : Parameters) (rm1 rm2 : ReadMethod),
      task_jump_targets seed rm1 p words n =
        task_jump_targets seed rm2 q words n) := by
  refine ⟨rfl, ?_, ?_⟩
  · intro p
    unfold build_task random_generate_from_params
    simp [List.lookup]
  · intro p q rm1 rm2
    cases rm1 <;> cases rm2 <;> rfl

/-- C2 counterexample: an output permitted by the `sort_unstable_by_key`
contract — sorted ascending by jump time on an input containing a jump-time
tie — that is not stable: the two tied entries appear in reversed input
order. -/
theorem ranking_stability_counterexample :
    SortUnstableByKeySpec .jumpOnly [resultA, resultB] [resultB, resultA] ∧
    ¬ StableWrt .jumpOnly [resultA, resultB] [resultB, resultA] := by
  constructor
  · exact ⟨by decide, by decide⟩
  · intro h
    exact absurd (h 5) (by decide)

/-- C2 (amended): each of the three ranking modes produces an ascending
order — any output permitted by the `sort_unstable_by_key` contract is a
permutation of the results whose key sequence is nondecreasing, with a
minimum-key entry first — but entries with equal sort keys may appear in
either order, since the sort is unstable. -/
theorem ranking_sorts_ascending (m : SortBy) (input output : List BenchResult)
    (h : SortUnstableByKeySpec m input output) :
    (output.map (sort_key m)).Pairwise (· ≤ ·) ∧
    (output.map (sort_key m)).Perm (input.map (sort_key m)) ∧
    ∀ hd ∈ output.head?, ∀ x ∈ output, sort_key m hd ≤ sort_key m x := by
  obtain ⟨hperm, hsorted⟩ := h
  refine ⟨?_, ?_, ?_⟩
  · rw [List.pairwise_map]
    exact hsorted
  · exact (hperm.map (sort_key m)).symm
  · intro hd hhd x hx
    cases output with
    | nil => cases hhd
    | cons a t =>
      have hda : a = hd := by simpa using hhd
      subst hda
      rcases List.mem_cons.mp hx with rfl | hxt
      · exact le_refl _
      · exact List.rel_of_pairwise_cons hsorted hxt

/-- Witness for the amended C2 theorem: the identity order on the tied input
satisfies the sort contract, and the amended conclusions hold of it. -/
theorem ranking_sorts_ascending_witness :
    SortUnstableByKeySpec .jumpOnly [resultA, resultB] [resultA, resultB] ∧
    (([resultA, resultB].map (sort_key .jumpOnly)).Pairwise (· ≤ ·) ∧
      ([resultA, resultB].map (sort_key .jumpOnly)).Perm
        ([resultA, resultB].map (sort_key .jumpOnly)) ∧
      ∀ hd ∈ ([resultA, resultB] : List BenchResult).head?,
        ∀ x ∈ ([resultA, resultB] : List BenchResult),
          sort_key .jumpOnly hd ≤ sort_key .jumpOnly x) := by
  have hh : SortUnstableByKeySpec .jumpOnly [resultA, resultB]
      [resultA, resultB] := ⟨by decide, by decide⟩
  exact ⟨hh, ranking_sorts_ascending .jumpOnly _ _ hh⟩

/-- C8 (spec-modelled; dense mode is absent from `src/main.rs`): the dense
generator produces `count` keys — the fixed-width big-endian counter — in
strictly increasing order, inherently unique with no deduplication; and in
Scenario A (seed 42, 100 dense 8-byte keys, no compression, 0 index levels,
4096-byte blocks, interval 16), the built store's full iteration yields keys
0 through 99 in order with all checks passing, and the lower-bound seek for
key 50 returns key 50 exactly. -/
theorem dense_mode (count : Nat) (h : count ≤ 2 ^ 64) :
    (dense_keys count).length = count ∧
    (dense_keys count).Pairwise (· < ·) ∧
    (dense_keys count).Nodup ∧
    scenario_build.handle = "folder" ++ "/" ++ name_from_params scenario_params ∧
    List.lookup scenario_build.handle scenario_build.fs = some scenario_store ∧
    scenario_store.map Entry.key = dense_keys 100 ∧
    iterPhase (dense_keys 100) scenario_store 0 = none ∧
    Option.map Entry.key (seekGE scenario_store (beBytes 8 50)) =
      some (beBytes 8 50) := by
  have hs100 : (dense_keys 100).Pairwise (· < ·) :=
    dense_keys_sorted 100 (by norm_num)
  have hmap : scenario_store.map Entry.key = dense_keys 100 :=
    writeStore_map_key _ _
  have hbd : scenario_store.Forall entryBounded := writeStore_bounded _ _
  refine ⟨?_, dense_keys_sorted count h,
    (dense_keys_sorted count h).imp (fun hlt => ne_of_lt hlt),
    rfl, ?_, hmap, ?_, ?_⟩
  · unfold dense_keys
    rw [List.length_map, List.length_range]
  · show List.lookup scenario_build.handle scenario_build.fs =
      some scenario_store
    unfold scenario_build scenario_store random_generate_from_params
    simp [List.lookup]
  · rw [iterPhase_zero_eq_none_iff]
    refine ⟨?_, hbd⟩
    have hlen : scenario_store.length = (dense_keys 100).length := by
      have := congrArg List.length hmap
      simpa using this
    rw [hmap, hlen, List.take_length]
  · apply seekGE_key_eq_of_mem
    · rw [hmap]
      exact hs100
    · rw [hmap]
      unfold dense_keys
      exact List.mem_map.mpr ⟨50, List.mem_range.mpr (by norm_num), rfl⟩

/-- Witness for the C8 theorem at `count = 100`. -/
theorem dense_mode_witness :
    100 ≤ 2 ^ 64 ∧ (dense_keys 100).length = 100 :=
  ⟨by norm_num, (dense_mode 100 (by norm_num)).1⟩

end GrenadBench
